import Mathlib

/-!
Verification development for the sid-farm custom API app.

The development shallowly embeds the four Python modules of the repository:

* `custom_app_api/permission_query_conditions/employee.py`
  (`get_permission_query_conditions` and its recursive subordinate query);
* `custom_app_api/custom_api/report/point_wise_attendance/point_wise_attendance.py`
  (`execute` and `get_point_wise_attendance`);
* `custom_app_api/custom_api/api_end_points/farmer_visit_api.py`
  (`create_farmer_visit`);
* `custom_app_api/doc_events/route.py` (`after_insert`).

Database tables are embedded as lists of records, SQL filters as list
filters, SQL `GROUP BY` as grouping on first occurrence of the key, the
recursive CTE as a fueled level-by-level expansion, Python float
percentages as exact rationals, and the framework's document store as
explicit state threading.
-/

namespace SidFarm

/-- Row of the `tabEmployee` table, with the fields used by the
permission filter. -/
structure EmployeeRec where
  name : String
  reports_to : Option String
  user_id : Option String
  status : String
deriving DecidableEq, Repr

/-- Atom of the SQL condition string built by
`get_permission_query_conditions`: the code joins the atoms of its
`conditions` list with `" and "`. -/
inductive Cond where
  | statusActive : Cond
  | nameIn (names : List String) : Cond
deriving DecidableEq, Repr

/-- Evaluation of one condition atom on an employee row. -/
def condHolds (e : EmployeeRec) : Cond → Bool
  | .statusActive => e.status == "Active"
  | .nameIn names => names.contains e.name

/-- Evaluation of the joined condition (conjunction of atoms) on a row:
a row is visible when every atom holds. -/
def rowVisible (cs : List Cond) (e : EmployeeRec) : Bool :=
  cs.all (condHolds e)

/-- Names of the direct reports of `boss`:
`SELECT name FROM tabEmployee WHERE reports_to = boss`. -/
def directReports (db : List EmployeeRec) (boss : String) : List String :=
  (db.filter (fun e => e.reports_to == some boss)).map (·.name)

/-- One `UNION ALL` step of the recursive CTE: all direct reports of the
current frontier. -/
def expandFrontier (db : List EmployeeRec) (frontier : List String) : List String :=
  frontier.flatMap (directReports db)

/-- Levels of the recursive CTE `emp_hierarchy`, collected for `fuel`
iterations starting from the given frontier. -/
def cteLevels (db : List EmployeeRec) : Nat → List String → List String
  | 0, _ => []
  | fuel + 1, frontier => frontier ++ cteLevels db fuel (expandFrontier db frontier)

/-- Result of the recursive subordinate query of
`get_permission_query_conditions`: every employee reachable downward
from `employee`.  On an acyclic `reports_to` graph every chain has at
most `db.length` edges, so `db.length` rounds of expansion exhaust the
query's levels. -/
def subordinates_query (db : List EmployeeRec) (employee : String) : List String :=
  cteLevels db db.length (directReports db employee)

/-- The `subordinate_names` list of the Python code: the employee itself
followed by the query result. -/
def subordinate_names (db : List EmployeeRec) (employee : String) : List String :=
  employee :: subordinates_query db employee

/-- Lookup `frappe.db.get_value("Employee", {"user_id": user}, "name")`:
the name of the first employee row whose `user_id` is `user`. -/
def findEmployee (db : List EmployeeRec) (user : String) : Option String :=
  (db.find? (fun e => e.user_id == some user)).map (·.name)

/-- The permission filter `get_permission_query_conditions`, returning
the list of condition atoms whose conjunction is the produced SQL
string. -/
def get_permission_query_conditions (roles : List String) (user : String)
    (db : List EmployeeRec) : List Cond :=
  let conditions := [Cond.statusActive]
  if roles.contains "System Manager" || user == "Administrator" then conditions
  else
    match findEmployee db user with
    | none => conditions
    | some employee =>
      let names := subordinate_names db employee
      if names.isEmpty then conditions else conditions ++ [Cond.nameIn names]

/-- The edge relation of the hierarchy: `a` directly reports to `b`,
through some employee row. -/
def reportsStep (db : List EmployeeRec) (a b : String) : Prop :=
  ∃ e ∈ db, e.name = a ∧ e.reports_to = some b

/-- Chains of exactly `n` `reportsStep` edges from `x` down to `b`. -/
def chainN (db : List EmployeeRec) : Nat → String → String → Prop
  | 0, x, b => x = b
  | n + 1, x, b => ∃ y, reportsStep db x y ∧ chainN db n y b

/-- Acyclicity of the `reports_to` graph: nobody is their own transitive
manager. -/
def Acyclic (db : List EmployeeRec) : Prop :=
  ∀ x, ¬ Relation.TransGen (reportsStep db) x x

/-- The frontier after `k` expansion steps of the CTE. -/
def iterExpand (db : List EmployeeRec) : Nat → List String → List String
  | 0, frontier => frontier
  | k + 1, frontier => iterExpand db k (expandFrontier db frontier)

/-- The sources of a downward chain ending at `b`: `sourcesChain db b l`
holds when the members of `l` are the successive edge sources of a chain
of `l.length` edges whose final target is `b`. -/
def sourcesChain (db : List EmployeeRec) (b : String) : List String → Prop
  | [] => False
  | [a] => reportsStep db a b
  | a :: a' :: rest => reportsStep db a a' ∧ sourcesChain db b (a' :: rest)

/-- Concrete employee table used by the concrete permission instances:
a three-person chain `EMP-003 → EMP-002 → EMP-001` plus an inactive
employee reporting outside the table. -/
def permissionDemoDb : List EmployeeRec :=
  [⟨"EMP-001", none, some "boss@sf.in", "Active"⟩,
   ⟨"EMP-002", some "EMP-001", some "mid@sf.in", "Active"⟩,
   ⟨"EMP-003", some "EMP-002", some "leaf@sf.in", "Active"⟩,
   ⟨"EMP-004", some "EMP-009", none, "Inactive"⟩]

/-- Row of the `Point` table. -/
structure PointRec where
  name : String
  zone_name : Option String
  point_name : String
  is_active : Bool
deriving DecidableEq, Repr

/-- Row of the `Zone` table. -/
structure ZoneRec where
  name : String
  zone_name : String
deriving DecidableEq, Repr

/-- Row of the `Employee` table, with the fields used by the report. -/
structure ReportEmployee where
  name : String
  company : String
  status : String
  custom_point : Option String
  designation : String
deriving DecidableEq, Repr

/-- Row of the `Attendance` table. -/
structure AttendanceRec where
  name : String
  employee : String
  attendance_date : String
  status : String
  docstatus : Nat
deriving DecidableEq, Repr

/-- The relational store queried by the report. -/
structure ReportDB where
  pointTable : List PointRec
  zoneTable : List ZoneRec
  employeeTable : List ReportEmployee
  attendanceTable : List AttendanceRec
deriving Repr

/-- Report filters, after `execute` resolved `filters.companies`. -/
structure ReportFilters where
  companies : List String
  date : String
  zones : Option (List String)
  points : Option (List String)
deriving Repr

/-- One group of a SQL `GROUP BY status` query:
a status together with its row count. -/
structure StatusCount where
  status : String
  count : Nat
deriving DecidableEq, Repr

/-- Distinct keys of a list in order of first occurrence, with `seen`
the keys already emitted. -/
def firstOccAux {α : Type} [DecidableEq α] (seen : List α) : List α → List α
  | [] => []
  | a :: rest =>
    if a ∈ seen then firstOccAux seen rest else a :: firstOccAux (a :: seen) rest

/-- Distinct keys of a list in order of first occurrence, as the group
keys of a SQL `GROUP BY`. -/
def firstOccKeys {α : Type} [DecidableEq α] (l : List α) : List α :=
  firstOccAux [] l

/-- `GROUP BY status` with `count(*)` over attendance rows. -/
def groupByStatus (atts : List AttendanceRec) : List StatusCount :=
  (firstOccKeys (atts.map (·.status))).map
    (fun s => ⟨s, (atts.filter (fun a => a.status == s)).length⟩)

/-- The per-point attendance counters. -/
structure AttCounts where
  present : Nat
  absent : Nat
  on_leave : Nat
deriving DecidableEq, Repr

/-- The counter loop of `get_point_wise_attendance` (lines 337-347): each
matching group OVERWRITES the counter of its class — `Present` and
`Work From Home` groups both assign the shared `present` counter, the
later group replacing the earlier one. -/
def processAttendanceCounts (groups : List StatusCount) : AttCounts :=
  groups.foldl
    (fun acc g =>
      if g.status = "Present" ∨ g.status = "Work From Home" then
        { acc with present := g.count }
      else if g.status = "Absent" then { acc with absent := g.count }
      else if g.status = "On Leave" then { acc with on_leave := g.count }
      else acc)
    ⟨0, 0, 0⟩

/-- Present count as the specification words it: the total number of
same-date submitted attendance rows whose status is `Present` plus those
whose status is `Work From Home` (both statuses contribute). -/
def specPresentCount (groups : List StatusCount) : Nat :=
  ((groups.filter
      (fun g => g.status == "Present" || g.status == "Work From Home")).map (·.count)).sum

/-- One row of the report. -/
structure Row where
  zone : String
  point : String
  total_employees : Nat
  present : Nat
  absent : Nat
  on_leave : Nat
  attendance_percentage : ℚ
deriving DecidableEq, Repr

/-- Display name of a zone, `zone_map.get(key, "")`. -/
def lookupZoneName (zoneTable : List ZoneRec) (key : Option String) : String :=
  match key with
  | none => ""
  | some k =>
    match zoneTable.find? (fun z => z.name == k) with
    | some z => z.zone_name
    | none => ""

/-- Active points of the report, after the optional zone filter. -/
def allowedPoints (db : ReportDB) (f : ReportFilters) : List PointRec :=
  db.pointTable.filter
    (fun p =>
      p.is_active &&
        match f.zones with
        | some zs =>
          match p.zone_name with
          | some z => zs.contains z
          | none => false
        | none => true)

/-- Point filter on employees: the employee's `custom_point` must be an
allowed point, further restricted to `filters.points` when that filter
is given. -/
def employeePointOk (f : ReportFilters) (allowedNames : List String)
    (cp : Option String) : Bool :=
  match f.points with
  | some ps =>
    match cp with
    | some c => (ps.filter (fun q => allowedNames.contains q)).contains c
    | none => false
  | none =>
    match cp with
    | some c => allowedNames.contains c
    | none => false

/-- The per-point report row for point `p` with headcount `total`. -/
def mkPointRow (db : ReportDB) (f : ReportFilters) (allowed : List PointRec)
    (p : String) (total : Nat) : Row :=
  let zone :=
    match allowed.find? (fun q => q.name == p) with
    | some q => lookupZoneName db.zoneTable q.zone_name
    | none => ""
  let point_employees :=
    db.employeeTable.filter
      (fun e => e.custom_point == some p && f.companies.contains e.company &&
        e.status == "Active")
  let atts :=
    db.attendanceTable.filter
      (fun a => a.attendance_date == f.date &&
        (point_employees.map (·.name)).contains a.employee && a.docstatus == 1)
  let c := processAttendanceCounts (groupByStatus atts)
  let total_marked := c.present + c.absent + c.on_leave
  { zone := zone
    point := p
    total_employees := total
    present := c.present
    absent := c.absent
    on_leave := c.on_leave
    attendance_percentage :=
      if total_marked = 0 then 0 else (c.present : ℚ) / (total_marked : ℚ) * 100 }

/-- The unsorted per-point rows of `get_point_wise_attendance` (lines
253-376): group the filtered employees by `custom_point`, skip the empty
group key, and build one row per point. -/
def computePointRows (db : ReportDB) (f : ReportFilters) : List Row :=
  let allowed := allowedPoints db f
  let allowedNames := allowed.map (·.name)
  let filteredEmps :=
    db.employeeTable.filter
      (fun e => f.companies.contains e.company && e.status == "Active" &&
        employeePointOk f allowedNames e.custom_point)
  let pointGroups :=
    (firstOccKeys (filteredEmps.map (·.custom_point))).map
      (fun k => (k, (filteredEmps.filter (fun e => e.custom_point == k)).length))
  pointGroups.filterMap
    (fun g =>
      match g.1 with
      | none => none
      | some p => if p = "" then none else some (mkPointRow db f allowed p g.2))

/-- Sort key order of `data.sort(key=lambda x: (x["zone"] or "", x["point"] or ""))`:
lexicographic on the `(zone, point)` pair.  A missing zone was already
normalised to `""` when the row was built (`zone_map.get(..., "")`), and
Python's `s or ""` is the identity on strings. -/
def keyLe (a b : Row) : Prop :=
  a.zone < b.zone ∨ (a.zone = b.zone ∧ a.point ≤ b.point)

instance keyLe.decidableRel : DecidableRel keyLe := fun a b =>
  inferInstanceAs (Decidable (_ ∨ _))

instance keyLe.isTotal : IsTotal Row keyLe where
  total a b := by
    rcases lt_trichotomy a.zone b.zone with h | h | h
    · exact Or.inl (Or.inl h)
    · rcases le_total a.point b.point with hp | hp
      · exact Or.inl (Or.inr ⟨h, hp⟩)
      · exact Or.inr (Or.inr ⟨h.symm, hp⟩)
    · exact Or.inr (Or.inl h)

instance keyLe.isTrans : IsTrans Row keyLe where
  trans a b c hab hbc := by
    rcases hab with hab | ⟨hab, hab'⟩
    · rcases hbc with hbc | ⟨hbc, _⟩
      · exact Or.inl (lt_trans hab hbc)
      · exact Or.inl (hbc ▸ hab)
    · rcases hbc with hbc | ⟨hbc, hbc'⟩
      · exact Or.inl (hab ▸ hbc)
      · exact Or.inr ⟨hab.trans hbc, le_trans hab' hbc'⟩

/-- The stable sort of the report rows by `(zone, point)`. -/
def sortRows (data : List Row) : List Row :=
  data.insertionSort keyLe

/-- Zone-wise running totals (`zone_wise_data`). -/
structure ZoneTotals where
  total_employees : Nat
  present : Nat
  absent : Nat
  on_leave : Nat
deriving DecidableEq, Repr

/-- Accumulation of `zone_wise_data[zone]` over the point rows. -/
def zoneAggregate (data : List Row) (z : String) : ZoneTotals :=
  data.foldl
    (fun acc r =>
      if r.zone == z then
        ⟨acc.total_employees + r.total_employees, acc.present + r.present,
          acc.absent + r.absent, acc.on_leave + r.on_leave⟩
      else acc)
    ⟨0, 0, 0, 0⟩

/-- The subtotal row appended for a zone (lines 396-406 and 411-422). -/
def zoneTotalRow (z : String) (t : ZoneTotals) : Row :=
  let zone_marked := t.present + t.absent + t.on_leave
  { zone := z ++ " Total"
    point := ""
    total_employees := t.total_employees
    present := t.present
    absent := t.absent
    on_leave := t.on_leave
    attendance_percentage :=
      if zone_marked = 0 then 0 else (t.present : ℚ) / (zone_marked : ℚ) * 100 }

/-- The grand-total row (lines 382-387 and 424-434), computed from the
point rows before subtotal insertion. -/
def grandRow (data : List Row) : Row :=
  let p := (data.map (·.present)).sum
  let a := (data.map (·.absent)).sum
  let l := (data.map (·.on_leave)).sum
  let total_marked := p + a + l
  { zone := "Grand Total"
    point := ""
    total_employees := (data.map (·.total_employees)).sum
    present := p
    absent := a
    on_leave := l
    attendance_percentage :=
      if total_marked = 0 then 0 else (p : ℚ) / (total_marked : ℚ) * 100 }

/-- The subtotal-insertion loop of `get_point_wise_attendance` (lines
389-422): walk the sorted rows with the `current_zone` state, emit the
pending zone's subtotal at each zone change, and after the loop emit the
last zone's subtotal only when `current_zone` is truthy — the empty
string is falsy in Python and gets no final subtotal. -/
def addTotalsAux (zw : String → ZoneTotals) : Option String → List Row → List Row
  | cur, [] =>
    (match cur with
     | some z => if z ≠ "" then [zoneTotalRow z (zw z)] else []
     | none => [])
  | cur, r :: rest =>
    if cur ≠ some r.zone then
      (match cur with
       | some z => [zoneTotalRow z (zw z)]
       | none => []) ++ r :: addTotalsAux zw (some r.zone) rest
    else r :: addTotalsAux zw cur rest

/-- Zones that receive a subtotal row, in emission order. -/
def subtotalZones : Option String → List Row → List String
  | cur, [] =>
    (match cur with
     | some z => if z ≠ "" then [z] else []
     | none => [])
  | cur, r :: rest =>
    if cur ≠ some r.zone then
      (match cur with
       | some z => [z]
       | none => []) ++ subtotalZones (some r.zone) rest
    else subtotalZones cur rest

/-- Rows of the finished report: the (sorted) point rows with zone
subtotals interleaved, then the grand-total row. -/
def addTotals (data : List Row) : List Row :=
  addTotalsAux (zoneAggregate data) none data ++ [grandRow data]

/-- The full `get_point_wise_attendance` pipeline. -/
def get_point_wise_attendance (db : ReportDB) (f : ReportFilters) : List Row :=
  addTotals (sortRows (computePointRows db f))

/-- Chart and summary payload built by `execute`. -/
structure ExecSummary where
  chart_values : List Nat
  summary_total_employees : Nat
  summary_present : Nat
  summary_absent : Nat
  summary_on_leave : Nat
  summary_percentage : ℚ
deriving DecidableEq, Repr

/-- The chart/summary part of `execute` (lines 17-201): totals are summed
over `data[:-1]`, every row but the last, and the all-zero payload is
produced when no attendance was marked. -/
def execute (data : List Row) : ExecSummary :=
  let body := data.dropLast
  let total_employees := (body.map (·.total_employees)).sum
  let total_present := (body.map (·.present)).sum
  let total_absent := (body.map (·.absent)).sum
  let total_on_leave := (body.map (·.on_leave)).sum
  let total_marked := total_present + total_absent + total_on_leave
  if total_marked = 0 then
    { chart_values := [0, 0, 0]
      summary_total_employees := total_employees
      summary_present := 0
      summary_absent := 0
      summary_on_leave := 0
      summary_percentage := 0 }
  else
    { chart_values := [total_present, total_absent, total_on_leave]
      summary_total_employees := total_employees
      summary_present := total_present
      summary_absent := total_absent
      summary_on_leave := total_on_leave
      summary_percentage := (total_present : ℚ) / (total_marked : ℚ) * 100 }

/-- The sort key of a report row. -/
def rowKey (r : Row) : String × String := (r.zone, r.point)

/-- Concrete zone with two point rows whose subtotal percentage (40%)
differs from the mean of the per-point percentages (100/3 %). -/
def zoneDemoRows : List Row :=
  [⟨"North", "P1", 3, 2, 1, 0, (2 : ℚ) / 3 * 100⟩,
   ⟨"North", "P2", 2, 0, 0, 2, 0⟩]

/-- Concrete single-point zone with no marked attendance, used to
instantiate the subtotal theorems. -/
def zeroZoneRows : List Row :=
  [⟨"Z", "P", 1, 0, 0, 0, 0⟩]

/-- Rows used to instantiate the doubling theorem: one zone, two point
rows with identical sort keys. -/
def coverDemoRows : List Row :=
  [⟨"A", "P1", 1, 1, 0, 0, 100⟩, ⟨"A", "P1", 2, 0, 1, 1, 0⟩]

/-- Maximal runs of adjacent rows with equal zone, keyed by the zone. -/
def zoneRuns : List Row → List (String × List Row)
  | [] => []
  | r :: rest =>
    match zoneRuns rest with
    | [] => [(r.zone, [r])]
    | (z, run) :: more =>
      if r.zone = z then (z, r :: run) :: more
      else (r.zone, [r]) :: (z, run) :: more

/-- Glue the runs back together, appending each zone's subtotal row
after its run — except after the final run when its zone is empty. -/
def joinRuns (zw : String → ZoneTotals) : List (String × List Row) → List Row
  | [] => []
  | [(z, run)] => run ++ (if z = "" then [] else [zoneTotalRow z (zw z)])
  | (z, run) :: p :: runs => run ++ zoneTotalRow z (zw z) :: joinRuns zw (p :: runs)

/-- The layout the amended C6 describes: each maximal zone run followed
by exactly one subtotal row for its zone, except that a final run with
the empty zone gets none, with the grand total last. -/
def amendedLayout (data : List Row) : List Row :=
  joinRuns (zoneAggregate data) (zoneRuns data) ++ [grandRow data]

/-- Concrete store on which the per-point present counter loses counts:
one point, two active employees, one `Present` and one `Work From Home`
submitted attendance row on the report date. -/
def presentOverwriteDB : ReportDB :=
  { pointTable := [⟨"P1", some "Z1", "Point One", true⟩]
    zoneTable := [⟨"Z1", "North"⟩]
    employeeTable :=
      [⟨"E1", "C", "Active", some "P1", "Delivery Partner"⟩,
       ⟨"E2", "C", "Active", some "P1", "Delivery Partner"⟩]
    attendanceTable :=
      [⟨"A1", "E1", "2025-01-01", "Present", 1⟩,
       ⟨"A2", "E2", "2025-01-01", "Work From Home", 1⟩] }

/-- Filters selecting that date and company. -/
def presentOverwriteFilters : ReportFilters := ⟨["C"], "2025-01-01", none, none⟩

/-- Store with one point whose employee has no attendance rows at all,
instantiating C8. -/
def noAttendanceDB : ReportDB :=
  { pointTable := [⟨"P1", some "Z1", "Point One", true⟩]
    zoneTable := [⟨"Z1", "North"⟩]
    employeeTable := [⟨"E1", "C", "Active", some "P1", "Delivery Partner"⟩]
    attendanceTable := [] }

/-- The uniform response envelope of the API. -/
structure ApiResponse where
  success : Bool
  api_status : String
  code : String
  http_status_code : Nat
deriving DecidableEq, Repr

/-- The framework store touched by `create_farmer_visit`: created Farmer
Details records and Visit Tracker records with their docstatus
(0 = draft, 1 = submitted). -/
structure VisitStore where
  farmers : List String
  visits : List (String × Nat)
deriving DecidableEq, Repr

/-- Outcome environment for the store operations of one request: whether
the token verifies, the acting employee, and whether each insert/submit
call succeeds (an exception is modelled as `false`), with the names the
framework assigns to newly inserted records. -/
structure VisitEnv where
  token_ok : Bool
  employee : String
  farmer_insert_ok : Bool
  new_farmer_name : String
  image_ok : Bool
  visit_insert_ok : Bool
  new_visit_name : String
  visit_submit_ok : Bool
deriving DecidableEq, Repr

/-- The visit payload, as far as control flow depends on it: whether a
`visit_image` key is present. -/
structure VisitDetail where
  has_image : Bool
deriving DecidableEq, Repr

/-- Python truthiness of the optional `farmer_name` argument:
`None` and `""` are falsy. -/
def pyStrTruthy : Option String → Bool
  | none => false
  | some s => s ≠ ""

/-- Python truthiness of the optional `farmer_create_detail` dict:
`None` and `{}` are falsy. -/
def pyDictTruthy : Option (List (String × String)) → Bool
  | none => false
  | some kvs => kvs ≠ []

/-- The `create_farmer_visit` endpoint: token check, input validation,
optional farmer creation, optional image processing, then visit insert
and submit; every failure is converted to an error envelope, and no
branch removes previously created records. -/
def create_farmer_visit (farmer_name : Option String)
    (farmer_create_detail : Option (List (String × String)))
    (visit_tracker_detail : VisitDetail) (env : VisitEnv) (s : VisitStore) :
    ApiResponse × VisitStore :=
  if ¬env.token_ok then
    (⟨false, "error", "AUTH_FAILED", 401⟩, s)
  else if ¬pyStrTruthy farmer_name ∧ ¬pyDictTruthy farmer_create_detail then
    (⟨false, "error", "INVALID_INPUT", 400⟩, s)
  else
    let afterFarmer :=
      if pyDictTruthy farmer_create_detail then
        if env.farmer_insert_ok then
          some ({ s with farmers := s.farmers ++ [env.new_farmer_name] })
        else none
      else some s
    match afterFarmer with
    | none => (⟨false, "error", "FARMER_CREATION_FAILED", 400⟩, s)
    | some s1 =>
      if visit_tracker_detail.has_image ∧ ¬env.image_ok then
        (⟨false, "error", "IMAGE_PROCESSING_FAILED", 400⟩, s1)
      else if ¬env.visit_insert_ok then
        (⟨false, "error", "VISIT_CREATION_FAILED", 400⟩, s1)
      else
        let s2 := { s1 with visits := s1.visits ++ [(env.new_visit_name, 0)] }
        if ¬env.visit_submit_ok then
          (⟨false, "error", "VISIT_CREATION_FAILED", 400⟩, s2)
        else
          (⟨true, "success", "VISIT_CREATED", 201⟩,
            { s1 with visits := s1.visits ++ [(env.new_visit_name, 1)] })

/-- The fields of a `route` document used by the hook. -/
structure RouteDoc where
  name : String
  route_name : String
  branch : String
deriving DecidableEq, Repr

/-- A Job Opening record as created by the hook. -/
structure JobOpening where
  job_title : String
  designation : String
  opening_status : String
  posted_on : String
  company : String
  custom_travel_route : String
  location : String
  route : String
deriving DecidableEq, Repr

/-- Environment of the hook: the current time and whether the insert
succeeds (exceptions are caught and only logged). -/
structure RouteEnv where
  now : String
  insert_ok : Bool
deriving DecidableEq, Repr

/-- Python `s.lower()`: lowercase the string character by character. -/
def pyLower (s : String) : String := ⟨s.data.map Char.toLower⟩

/-- Python `needle in haystack` on strings: substring containment. -/
def pyContains (needle hay : String) : Bool :=
  hay.data.tails.any (fun t => needle.data.isPrefixOf t)

/-- The `after_insert` hook of `route`: skip names containing "default"
case-insensitively, otherwise best-effort create one Job Opening. -/
def after_insert (doc : RouteDoc) (env : RouteEnv) (jobOpenings : List JobOpening) :
    List JobOpening :=
  if pyContains "default" (pyLower doc.route_name) then jobOpenings
  else if env.insert_ok then
    jobOpenings ++
      [{ job_title := "Vacancy for " ++ doc.name
         designation := "Delivery Partner"
         opening_status := "Open"
         posted_on := env.now
         company := "SIDS FARM PRIVATE LIMITED"
         custom_travel_route := doc.name
         location := doc.branch
         route := "jobs/sids_farm_private_limited/" ++ pyLower doc.name }]
  else jobOpenings

/-! ## Theorems -/

theorem mem_directReports {db : List EmployeeRec} {b x : String} :
    x ∈ directReports db b ↔ reportsStep db x b := by
  simp only [directReports, List.mem_map, List.mem_filter, reportsStep]
  constructor
  · rintro ⟨e, ⟨he, hrep⟩, hname⟩
    exact ⟨e, he, hname, by simpa using hrep⟩
  · rintro ⟨e, he, hname, hrep⟩
    exact ⟨e, ⟨he, by simpa using hrep⟩, hname⟩

theorem mem_expandFrontier {db : List EmployeeRec} {f : List String} {x : String} :
    x ∈ expandFrontier db f ↔ ∃ y ∈ f, reportsStep db x y := by
  simp only [expandFrontier, List.mem_flatMap, mem_directReports]

theorem mem_cteLevels {db : List EmployeeRec} {x : String} :
    ∀ {fuel : Nat} {f : List String},
      x ∈ cteLevels db fuel f ↔ ∃ k < fuel, x ∈ iterExpand db k f := by
  intro fuel
  induction fuel with
  | zero => simp [cteLevels]
  | succ m ih =>
    intro f
    simp only [cteLevels, List.mem_append, ih]
    constructor
    · rintro (hx | ⟨k, hk, hx⟩)
      · exact ⟨0, Nat.succ_pos m, hx⟩
      · exact ⟨k + 1, Nat.succ_lt_succ hk, hx⟩
    · rintro ⟨k, hk, hx⟩
      cases k with
      | zero => exact Or.inl hx
      | succ k' => exact Or.inr ⟨k', Nat.lt_of_succ_lt_succ hk, hx⟩

theorem chainN_snoc {db : List EmployeeRec} :
    ∀ {n : Nat} {x b : String},
      chainN db (n + 1) x b ↔ ∃ y, chainN db n x y ∧ reportsStep db y b := by
  intro n
  induction n with
  | zero =>
    intro x b
    constructor
    · rintro ⟨y, hs, hy⟩
      exact ⟨x, rfl, by rwa [show y = b from hy] at hs⟩
    · rintro ⟨y, hy, hs⟩
      refine ⟨b, ?_, rfl⟩
      rw [show x = y from hy]
      exact hs
  | succ m ih =>
    intro x b
    constructor
    · rintro ⟨y, hs, hy⟩
      obtain ⟨z, hz, hstep⟩ := ih.mp hy
      exact ⟨z, ⟨y, hs, hz⟩, hstep⟩
    · rintro ⟨y, ⟨z, hs, hz⟩, hstep⟩
      exact ⟨z, hs, ih.mpr ⟨y, hz, hstep⟩⟩

theorem mem_iterExpand {db : List EmployeeRec} {x : String} :
    ∀ {k : Nat} {f : List String},
      x ∈ iterExpand db k f ↔ ∃ y ∈ f, chainN db k x y := by
  intro k
  induction k with
  | zero =>
    intro f
    simp only [iterExpand, chainN]
    constructor
    · intro hx; exact ⟨x, hx, rfl⟩
    · rintro ⟨y, hy, h⟩
      rwa [show x = y from h]
  | succ m ih =>
    intro f
    simp only [iterExpand]
    rw [ih]
    constructor
    · rintro ⟨y, hy, hchain⟩
      obtain ⟨z, hz, hstep⟩ := mem_expandFrontier.mp hy
      exact ⟨z, hz, chainN_snoc.mpr ⟨y, hchain, hstep⟩⟩
    · rintro ⟨z, hz, hchain⟩
      obtain ⟨y, hchain', hstep⟩ := chainN_snoc.mp hchain
      exact ⟨y, mem_expandFrontier.mpr ⟨z, hz, hstep⟩, hchain'⟩

theorem mem_subordinates_query_bounded {db : List EmployeeRec} {emp x : String} :
    x ∈ subordinates_query db emp ↔
      ∃ n, 1 ≤ n ∧ n ≤ db.length ∧ chainN db n x emp := by
  rw [subordinates_query, mem_cteLevels]
  constructor
  · rintro ⟨k, hk, hx⟩
    obtain ⟨y, hy, hchain⟩ := mem_iterExpand.mp hx
    refine ⟨k + 1, Nat.succ_le_succ (Nat.zero_le k), Nat.succ_le_of_lt hk, ?_⟩
    exact chainN_snoc.mpr ⟨y, hchain, mem_directReports.mp hy⟩
  · rintro ⟨n, h1, hn, hchain⟩
    obtain ⟨m, rfl⟩ : ∃ m, n = m + 1 := ⟨n - 1, (Nat.succ_pred_eq_of_pos h1).symm⟩
    obtain ⟨y, hchain', hstep⟩ := chainN_snoc.mp hchain
    refine ⟨m, Nat.lt_of_succ_le hn, ?_⟩
    exact mem_iterExpand.mpr ⟨y, mem_directReports.mpr hstep, hchain'⟩

theorem transGen_iff_chainN {db : List EmployeeRec} {x b : String} :
    Relation.TransGen (reportsStep db) x b ↔ ∃ n, 1 ≤ n ∧ chainN db n x b := by
  constructor
  · intro h
    induction h with
    | single hs => exact ⟨1, le_refl 1, _, hs, rfl⟩
    | tail _ hs ih =>
      obtain ⟨n, h1, hchain⟩ := ih
      exact ⟨n + 1, Nat.le_succ_of_le h1, chainN_snoc.mpr ⟨_, hchain, hs⟩⟩
  · rintro ⟨n, h1, hchain⟩
    obtain ⟨m, rfl⟩ : ∃ m, n = m + 1 := ⟨n - 1, (Nat.succ_pred_eq_of_pos h1).symm⟩
    clear h1
    induction m generalizing x with
    | zero =>
      obtain ⟨y, hs, hy⟩ := hchain
      exact Relation.TransGen.single (by rwa [show y = b from hy] at hs)
    | succ k ih =>
      obtain ⟨y, hs, hy⟩ := hchain
      exact Relation.TransGen.head hs (ih hy)

theorem chainN_iff_sources {db : List EmployeeRec} {b : String} :
    ∀ {n : Nat} {x : String},
      chainN db (n + 1) x b ↔ ∃ l, l.length = n ∧ sourcesChain db b (x :: l) := by
  intro n
  induction n with
  | zero =>
    intro x
    constructor
    · rintro ⟨y, hs, hy⟩
      refine ⟨[], rfl, ?_⟩
      show reportsStep db x b
      rwa [show y = b from hy] at hs
    · rintro ⟨l, hl, hsc⟩
      rw [List.length_eq_zero] at hl
      subst hl
      exact ⟨b, hsc, rfl⟩
  | succ m ih =>
    intro x
    constructor
    · rintro ⟨y, hs, hy⟩
      obtain ⟨l, hl, hsc⟩ := ih.mp hy
      exact ⟨y :: l, by simp [hl], hs, hsc⟩
    · rintro ⟨l, hl, hsc⟩
      cases l with
      | nil => simp at hl
      | cons y l' =>
        obtain ⟨hs, hsc'⟩ := hsc
        exact ⟨y, hs, ih.mpr ⟨l', by simpa using hl, hsc'⟩⟩

theorem sourcesChain_subset {db : List EmployeeRec} {b : String} :
    ∀ {l : List String}, sourcesChain db b l → ∀ a ∈ l, a ∈ db.map (·.name) := by
  intro l
  induction l with
  | nil => intro h; exact absurd h (by simp [sourcesChain])
  | cons c t ih =>
    intro h a ha
    cases t with
    | nil =>
      obtain ⟨e, he, hname, _⟩ := h
      rcases List.mem_singleton.mp ha with rfl
      exact List.mem_map.mpr ⟨e, he, hname⟩
    | cons c' t' =>
      obtain ⟨⟨e, he, hname, _⟩, hrest⟩ := h
      rcases List.mem_cons.mp ha with rfl | ha'
      · exact List.mem_map.mpr ⟨e, he, hname⟩
      · exact ih hrest a ha'

theorem sourcesChain_suffix {db : List EmployeeRec} {b : String} :
    ∀ {l : List String} {a : String} {v : List String},
      sourcesChain db b l → (a :: v) <:+ l → sourcesChain db b (a :: v) := by
  intro l
  induction l with
  | nil => intro a v _ hsuf; simpa using hsuf.length_le
  | cons c t ih =>
    intro a v h hsuf
    rcases List.suffix_cons_iff.mp hsuf with heq | hsuf'
    · injection heq with h1 h2; subst h1; subst h2; exact h
    · cases t with
      | nil => simpa using hsuf'.length_le
      | cons c' t' => exact ih h.2 hsuf'

theorem sourcesChain_cut {db : List EmployeeRec} {b a : String} :
    ∀ (l1 : List String) (l2 l3 : List String),
      sourcesChain db b (l1 ++ a :: l2 ++ a :: l3) →
      sourcesChain db b (l1 ++ a :: l3) := by
  intro l1
  induction l1 with
  | nil =>
    intro l2 l3 h
    have hsuf : (a :: l3) <:+ (a :: l2 ++ a :: l3) := by
      refine List.IsSuffix.trans (List.suffix_append l2 (a :: l3)) ?_
      exact ⟨[a], rfl⟩
    exact sourcesChain_suffix h (by simpa using hsuf)
  | cons c rest ih =>
    intro l2 l3 h
    cases rest with
    | nil =>
      obtain ⟨hs, hrest⟩ := h
      exact ⟨hs, ih l2 l3 hrest⟩
    | cons d rest' =>
      obtain ⟨hs, hrest⟩ := h
      exact ⟨hs, ih l2 l3 hrest⟩

theorem exists_dup_decomp {α : Type} {l : List α} (h : ¬ l.Nodup) :
    ∃ l1 a l2 l3, l = l1 ++ a :: l2 ++ a :: l3 := by
  induction l with
  | nil => exact absurd List.nodup_nil h
  | cons c t ih =>
    rw [List.nodup_cons] at h
    push_neg at h
    by_cases hc : c ∈ t
    · obtain ⟨s, t', rfl⟩ := List.append_of_mem hc
      exact ⟨[], c, s, t', rfl⟩
    · obtain ⟨l1, a, l2, l3, rfl⟩ := ih (h hc)
      exact ⟨c :: l1, a, l2, l3, rfl⟩

theorem chain_shorten {db : List EmployeeRec} {b : String} :
    ∀ (n : Nat) (x : String), chainN db n x b → 1 ≤ n →
      ∃ m, 1 ≤ m ∧ m ≤ db.length ∧ chainN db m x b := by
  intro n
  induction n using Nat.strong_induction_on with
  | _ n ih =>
    intro x hchain h1
    obtain ⟨k, rfl⟩ : ∃ k, n = k + 1 := ⟨n - 1, (Nat.succ_pred_eq_of_pos h1).symm⟩
    obtain ⟨l, hl, hsc⟩ := chainN_iff_sources.mp hchain
    by_cases hnd : (x :: l).Nodup
    · refine ⟨k + 1, h1, ?_, hchain⟩
      have hsub : (x :: l) ⊆ db.map (·.name) := fun a ha => sourcesChain_subset hsc a ha
      have := (hnd.subperm hsub).length_le
      simpa [hl] using this
    · obtain ⟨l1, a, l2, l3, hdec⟩ := exists_dup_decomp hnd
      have hcut : sourcesChain db b (l1 ++ a :: l3) := by
        rw [hdec] at hsc
        exact sourcesChain_cut l1 l2 l3 hsc
      have hshape : ∃ l', l1 ++ a :: l3 = x :: l' := by
        cases l1 with
        | nil =>
          simp only [List.nil_append] at hdec ⊢
          injection hdec with h1' _
          exact ⟨l3, by rw [h1']⟩
        | cons c r =>
          injection hdec with h1' _
          exact ⟨r ++ a :: l3, by rw [h1']; rfl⟩
      obtain ⟨l', hl'⟩ := hshape
      have hlen : l'.length + 1 < k + 1 := by
        have h2 : (l1 ++ a :: l3).length = l'.length + 1 := by
          rw [hl']; simp
        have h3 : (l1 ++ a :: l2 ++ a :: l3).length = k + 1 := by
          rw [← hdec]; simp [hl]
        have h4 : (l1 ++ a :: l3).length < (l1 ++ a :: l2 ++ a :: l3).length := by
          simp only [List.length_append, List.length_cons]
          omega
        omega
      have hchain' : chainN db (l'.length + 1) x b := by
        refine chainN_iff_sources.mpr ⟨l', rfl, ?_⟩
        rwa [hl'] at hcut
      exact ih (l'.length + 1) hlen x hchain' (Nat.succ_le_succ (Nat.zero_le _))

/-- Membership in the recursive subordinate query is exactly downward
reachability through `reports_to`. -/
theorem mem_subordinates_query {db : List EmployeeRec} {emp x : String} :
    x ∈ subordinates_query db emp ↔ Relation.TransGen (reportsStep db) x emp := by
  rw [mem_subordinates_query_bounded, transGen_iff_chainN]
  constructor
  · rintro ⟨n, h1, _, hchain⟩
    exact ⟨n, h1, hchain⟩
  · rintro ⟨n, h1, hchain⟩
    obtain ⟨m, hm1, hm2, hchain'⟩ := chain_shorten n x hchain h1
    exact ⟨m, hm1, hm2, hchain'⟩

/-- Any rank function that strictly decreases along `reports_to` edges
certifies acyclicity of the hierarchy. -/
theorem acyclic_of_rank (db : List EmployeeRec) (f : String → Nat)
    (h : ∀ x y, reportsStep db x y → f y < f x) : Acyclic db := by
  intro x hx
  have hlt : ∀ {a b : String}, Relation.TransGen (reportsStep db) a b → f b < f a := by
    intro a b hab
    induction hab with
    | single hs => exact h _ _ hs
    | tail _ hs ih => exact lt_trans (h _ _ hs) ih
  exact lt_irrefl _ (hlt hx)

theorem permissionDemoDb_acyclic : Acyclic permissionDemoDb := by
  refine acyclic_of_rank _
    (fun s => if s = "EMP-001" then 0 else if s = "EMP-002" then 1
      else if s = "EMP-003" then 2 else if s = "EMP-009" then 0
      else if s = "EMP-004" then 1 else 5) ?_
  rintro x y ⟨e, he, rfl, hrep⟩
  simp only [permissionDemoDb, List.mem_cons, List.not_mem_nil, or_false] at he
  rcases he with rfl | rfl | rfl | rfl
  · exact absurd hrep (by simp)
  · have hy := Option.some.inj hrep
    subst hy
    decide
  · have hy := Option.some.inj hrep
    subst hy
    decide
  · have hy := Option.some.inj hrep
    subst hy
    decide

/-- C1: for a non-administrator caller with an employee record, on an
acyclic `reports_to` graph, the condition returned by
`get_permission_query_conditions` is the base active-status condition
together with a name-IN restriction whose list contains exactly the
caller's employee and all direct and indirect subordinates (the set of
employees that transitively reach the caller's employee through
`reports_to`), independently of any traversal order. -/
theorem permission_filter_subordinate_closure
    (roles : List String) (user : String) (db : List EmployeeRec) (emp : String)
    (hadmin : ¬(("System Manager" : String) ∈ roles ∨ user = "Administrator"))
    (hemp : findEmployee db user = some emp)
    (hacyc : Acyclic db) :
    get_permission_query_conditions roles user db =
      [Cond.statusActive, Cond.nameIn (subordinate_names db emp)] ∧
    ∀ x, x ∈ subordinate_names db emp ↔
      (x = emp ∨ Relation.TransGen (reportsStep db) x emp) := by
  push_neg at hadmin
  constructor
  · simp [get_permission_query_conditions, hemp, subordinate_names, hadmin.1, hadmin.2]
  · intro x
    simp only [subordinate_names, List.mem_cons, mem_subordinates_query]

/-- Witness for C1 at a concrete table: the caller `mid@sf.in` is
employee `EMP-002`, whose closure is itself plus `EMP-003`. -/
theorem permission_filter_subordinate_closure_witness :
    (¬(("System Manager" : String) ∈ ([] : List String) ∨ "mid@sf.in" = "Administrator")) ∧
    (findEmployee permissionDemoDb "mid@sf.in" = some "EMP-002") ∧
    (get_permission_query_conditions [] "mid@sf.in" permissionDemoDb =
      [Cond.statusActive, Cond.nameIn (subordinate_names permissionDemoDb "EMP-002")] ∧
     ∀ x, x ∈ subordinate_names permissionDemoDb "EMP-002" ↔
       (x = "EMP-002" ∨ Relation.TransGen (reportsStep permissionDemoDb) x "EMP-002")) :=
  ⟨by decide, by decide,
    permission_filter_subordinate_closure [] "mid@sf.in" permissionDemoDb "EMP-002"
      (by decide) (by decide) permissionDemoDb_acyclic⟩

/-- Counterexample to C3 as stated: for the caller holding the System
Manager role, the returned condition is `status = 'Active'`, which does
exclude the inactive row `EMP-004` of the same Employee table, so the
returned predicate is not unrestricted. -/
theorem admin_condition_excludes_inactive_row :
    get_permission_query_conditions ["System Manager"] "someone@sf.in" permissionDemoDb =
      [Cond.statusActive] ∧
    (⟨"EMP-004", some "EMP-009", none, "Inactive"⟩ : EmployeeRec) ∈ permissionDemoDb ∧
    rowVisible
      (get_permission_query_conditions ["System Manager"] "someone@sf.in" permissionDemoDb)
      ⟨"EMP-004", some "EMP-009", none, "Inactive"⟩ = false := by
  decide

/-- C3 amended: for an administrative caller, or a caller with no
employee record, `get_permission_query_conditions` returns only the base
condition `status = 'Active'`: no per-user name restriction is added,
every Active row is visible, and exactly the non-Active rows are
excluded. -/
theorem permission_filter_default_condition
    (roles : List String) (user : String) (db : List EmployeeRec)
    (h : (("System Manager" : String) ∈ roles ∨ user = "Administrator") ∨
      findEmployee db user = none) :
    get_permission_query_conditions roles user db = [Cond.statusActive] ∧
    ∀ e : EmployeeRec,
      rowVisible (get_permission_query_conditions roles user db) e = (e.status == "Active") := by
  have hmain : get_permission_query_conditions roles user db = [Cond.statusActive] := by
    unfold get_permission_query_conditions
    split
    · rfl
    · rename_i hcond
      rcases h with hadmin | hnone
      · exfalso
        apply hcond
        rcases hadmin with hm | ha
        · simp [hm]
        · simp [ha]
      · rw [hnone]
  refine ⟨hmain, fun e => ?_⟩
  rw [hmain]
  simp [rowVisible, condHolds]

/-- Witness for C3 amended: a System Manager caller on the concrete
table gets the bare active-status condition, which admits the active row
`EMP-001` and rejects the inactive row `EMP-004`. -/
theorem permission_filter_default_condition_witness :
    ((("System Manager" : String) ∈ (["System Manager"] : List String) ∨
        "someone@sf.in" = "Administrator") ∨
      findEmployee permissionDemoDb "someone@sf.in" = none) ∧
    (get_permission_query_conditions ["System Manager"] "someone@sf.in" permissionDemoDb =
        [Cond.statusActive] ∧
      ∀ e : EmployeeRec,
        rowVisible
          (get_permission_query_conditions ["System Manager"] "someone@sf.in" permissionDemoDb) e =
          (e.status == "Active")) :=
  ⟨Or.inl (Or.inl (by decide)),
    permission_filter_default_condition ["System Manager"] "someone@sf.in" permissionDemoDb
      (Or.inl (Or.inl (by decide)))⟩

theorem addTotalsAux_nil (zw : String → ZoneTotals) (cur : Option String) :
    addTotalsAux zw cur [] =
      (match cur with
       | some z => if z ≠ "" then [zoneTotalRow z (zw z)] else []
       | none => []) := rfl

theorem addTotalsAux_nil_some (zw : String → ZoneTotals) (z : String) :
    addTotalsAux zw (some z) [] = if z ≠ "" then [zoneTotalRow z (zw z)] else [] := rfl

theorem addTotalsAux_nil_none (zw : String → ZoneTotals) :
    addTotalsAux zw none [] = [] := rfl

theorem addTotalsAux_cons (zw : String → ZoneTotals) (cur : Option String) (r : Row)
    (rest : List Row) :
    addTotalsAux zw cur (r :: rest) =
      if cur ≠ some r.zone then
        (match cur with
         | some z => [zoneTotalRow z (zw z)]
         | none => []) ++ r :: addTotalsAux zw (some r.zone) rest
      else r :: addTotalsAux zw cur rest := rfl

theorem subtotalZones_nil (cur : Option String) :
    subtotalZones cur [] =
      (match cur with
       | some z => if z ≠ "" then [z] else []
       | none => []) := rfl

theorem subtotalZones_nil_some (z : String) :
    subtotalZones (some z) [] = if z ≠ "" then [z] else [] := rfl

theorem subtotalZones_nil_none : subtotalZones none [] = [] := rfl

theorem subtotalZones_cons (cur : Option String) (r : Row) (rest : List Row) :
    subtotalZones cur (r :: rest) =
      if cur ≠ some r.zone then
        (match cur with
         | some z => [z]
         | none => []) ++ subtotalZones (some r.zone) rest
      else subtotalZones cur rest := rfl

theorem empty_string_lt (s : String) (h : s ≠ "") : "" < s := by
  rw [String.lt_iff_toList_lt, String.toList_empty, String.toList_nonempty h]
  exact List.nil_lt_cons _ _

theorem keyLe_of_rowKey_eq {a b : Row} (h : rowKey a = rowKey b) : keyLe a b := by
  obtain ⟨hz, hp⟩ := Prod.mk.injEq .. ▸ h
  exact Or.inr ⟨hz, le_of_eq hp⟩

theorem orderedInsert_filter_key (a : Row) (l : List Row) (k : String × String) :
    (l.orderedInsert keyLe a).filter (fun r => rowKey r == k) =
      if rowKey a == k then a :: l.filter (fun r => rowKey r == k)
      else l.filter (fun r => rowKey r == k) := by
  rw [List.orderedInsert_eq_take_drop, List.filter_append]
  have htake : (l.takeWhile fun b => ¬ keyLe a b).filter (fun r => rowKey r == k) = [] ∨
      (rowKey a == k) = false := by
    by_cases hk : (rowKey a == k) = true
    · left
      rw [List.filter_eq_nil_iff]
      intro b hb hbk
      have hnle : ¬ keyLe a b := by
        have := List.mem_takeWhile_imp hb
        simpa using this
      have hkey : rowKey b = k := by simpa using hbk
      have hkey' : rowKey a = rowKey b := by
        rw [hkey]
        simpa using hk
      exact hnle (keyLe_of_rowKey_eq hkey')
    · right
      simpa using hk
  by_cases hk : (rowKey a == k) = true
  · rcases htake with htake | hfalse
    · rw [htake, if_pos hk]
      have hfa : (fun r => rowKey r == k) a = true := hk
      rw [List.filter_cons_of_pos (p := fun r => rowKey r == k) hfa, List.nil_append]
      congr 1
      conv_rhs => rw [← List.takeWhile_append_dropWhile (p := fun b => decide (¬ keyLe a b)) (l := l)]
      rw [List.filter_append, htake, List.nil_append]
    · rw [hk] at hfalse
      cases hfalse
  · have hk' : (rowKey a == k) = false := by simpa using hk
    rw [if_neg (by simp [hk'])]
    have hfa : (fun r => rowKey r == k) a = false := hk'
    rw [List.filter_cons_of_neg (p := fun r => rowKey r == k) (by simp [hfa])]
    conv_rhs => rw [← List.takeWhile_append_dropWhile (p := fun b => decide (¬ keyLe a b)) (l := l)]
    rw [List.filter_append]

theorem sortRows_filter_key (d : List Row) (k : String × String) :
    (sortRows d).filter (fun r => rowKey r == k) = d.filter (fun r => rowKey r == k) := by
  induction d with
  | nil => rfl
  | cons a t ih =>
    show ((t.insertionSort keyLe).orderedInsert keyLe a).filter (fun r => rowKey r == k) = _
    rw [orderedInsert_filter_key]
    by_cases hk : (rowKey a == k) = true
    · rw [if_pos hk]
      rw [show sortRows t = t.insertionSort keyLe from rfl] at ih
      rw [ih, List.filter_cons_of_pos (p := fun r => rowKey r == k) hk]
    · have hk' : (rowKey a == k) = false := by simpa using hk
      rw [if_neg (by simp [hk'])]
      rw [show sortRows t = t.insertionSort keyLe from rfl] at ih
      rw [ih, List.filter_cons_of_neg (p := fun r => rowKey r == k) (by simp [hk'])]

/-- C7: the per-point rows are sorted stably by the `(zone, point)` key:
the sorted list is a permutation of the input, it is sorted for the
lexicographic key order, rows with any fixed key keep their original
relative order, and a row whose zone is the empty string (the
normalisation of a missing zone) strictly precedes every row with a
non-empty zone. -/
theorem report_rows_sorted_stable (d : List Row) (k : String × String) (a b : Row) :
    (sortRows d).Perm d ∧
    List.Sorted keyLe (sortRows d) ∧
    (sortRows d).filter (fun r => rowKey r == k) = d.filter (fun r => rowKey r == k) ∧
    (a.zone = "" → b.zone ≠ "" → keyLe a b ∧ ¬ keyLe b a) := by
  refine ⟨List.perm_insertionSort keyLe d, List.sorted_insertionSort keyLe d,
    sortRows_filter_key d k, fun ha hb => ?_⟩
  have hlt : a.zone < b.zone := by
    rw [ha]
    exact empty_string_lt _ hb
  refine ⟨Or.inl hlt, ?_⟩
  rintro (h | ⟨h, -⟩)
  · exact absurd (lt_trans hlt h) (lt_irrefl _)
  · exact hb (h.trans ha)

theorem filter_cons_true {α : Type} (p : α → Bool) {a : α} (l : List α) (h : p a = true) :
    (a :: l).filter p = a :: l.filter p := by
  simp [List.filter_cons, h]

theorem filter_cons_false {α : Type} (p : α → Bool) {a : α} (l : List α) (h : p a = false) :
    (a :: l).filter p = l.filter p := by
  simp [List.filter_cons, h]

theorem zoneAggregate_go (z : String) :
    ∀ (d : List Row) (acc : ZoneTotals),
      d.foldl
        (fun acc r =>
          if r.zone == z then
            ⟨acc.total_employees + r.total_employees, acc.present + r.present,
              acc.absent + r.absent, acc.on_leave + r.on_leave⟩
          else acc) acc =
        ⟨acc.total_employees + ((d.filter (fun r => r.zone == z)).map (·.total_employees)).sum,
         acc.present + ((d.filter (fun r => r.zone == z)).map (·.present)).sum,
         acc.absent + ((d.filter (fun r => r.zone == z)).map (·.absent)).sum,
         acc.on_leave + ((d.filter (fun r => r.zone == z)).map (·.on_leave)).sum⟩ := by
  intro d
  induction d with
  | nil => intro acc; simp
  | cons r t ih =>
    intro acc
    by_cases hz : (r.zone == z) = true
    · simp only [List.foldl_cons]
      rw [if_pos hz, ih, filter_cons_true (fun r => r.zone == z) t hz]
      simp only [List.map_cons, List.sum_cons, ZoneTotals.mk.injEq]
      omega
    · have hz' : (r.zone == z) = false := by simpa using hz
      simp only [List.foldl_cons]
      rw [if_neg (by simp [hz']), ih, filter_cons_false (fun r => r.zone == z) t hz']

/-- The zone accumulator equals the componentwise sums over the zone's
point rows. -/
theorem zoneAggregate_spec (data : List Row) (z : String) :
    zoneAggregate data z =
      ⟨((data.filter (fun r => r.zone == z)).map (·.total_employees)).sum,
       ((data.filter (fun r => r.zone == z)).map (·.present)).sum,
       ((data.filter (fun r => r.zone == z)).map (·.absent)).sum,
       ((data.filter (fun r => r.zone == z)).map (·.on_leave)).sum⟩ := by
  rw [zoneAggregate, zoneAggregate_go]
  simp

/-- Every row emitted by the subtotal loop is a point row or the subtotal
row of one of the emitted zones. -/
theorem mem_addTotalsAux (zw : String → ZoneTotals) :
    ∀ (cur : Option String) (d : List Row) (r : Row), r ∈ addTotalsAux zw cur d →
      r ∈ d ∨ ∃ z ∈ subtotalZones cur d, r = zoneTotalRow z (zw z) := by
  intro cur d
  induction d generalizing cur with
  | nil =>
    intro r hr
    cases cur with
    | none => simp [addTotalsAux] at hr
    | some z =>
      right
      by_cases hz : z ≠ ""
      · rw [addTotalsAux_nil_some, if_pos hz] at hr
        rcases List.mem_singleton.mp hr with rfl
        exact ⟨z, by simp [subtotalZones_nil_some, hz], rfl⟩
      · rw [addTotalsAux_nil_some, if_neg hz] at hr
        simp at hr
  | cons p t ih =>
    intro r hr
    by_cases hc : cur ≠ some p.zone
    · rw [addTotalsAux_cons, if_pos hc] at hr
      rw [subtotalZones_cons, if_pos hc]
      cases cur with
      | none =>
        simp only [List.nil_append, List.mem_cons] at hr
        rcases hr with rfl | hr
        · exact Or.inl (List.mem_cons_self _ _)
        · rcases ih (some p.zone) r hr with h | ⟨z, hz, hrz⟩
          · exact Or.inl (List.mem_cons_of_mem _ h)
          · exact Or.inr ⟨z, by simpa using hz, hrz⟩
      | some z0 =>
        simp only [List.cons_append, List.nil_append, List.mem_cons] at hr
        rcases hr with rfl | rfl | hr
        · exact Or.inr ⟨z0, by simp, rfl⟩
        · exact Or.inl (List.mem_cons_self _ _)
        · rcases ih (some p.zone) r hr with h | ⟨z, hz, hrz⟩
          · exact Or.inl (List.mem_cons_of_mem _ h)
          · exact Or.inr ⟨z, by simp [hz], hrz⟩
    · rw [addTotalsAux_cons, if_neg hc] at hr
      rw [subtotalZones_cons, if_neg hc]
      rcases List.mem_cons.mp hr with rfl | hr
      · exact Or.inl (List.mem_cons_self _ _)
      · rcases ih cur r hr with h | ⟨z, hz, hrz⟩
        · exact Or.inl (List.mem_cons_of_mem _ h)
        · exact Or.inr ⟨z, hz, hrz⟩

/-- Sums over the rows produced by the subtotal loop: the point rows
plus one subtotal contribution per emitted zone. -/
theorem addTotalsAux_map_sum (zw : String → ZoneTotals) (g : Row → Nat) (h : ZoneTotals → Nat)
    (hg : ∀ z, g (zoneTotalRow z (zw z)) = h (zw z)) :
    ∀ (cur : Option String) (d : List Row),
      ((addTotalsAux zw cur d).map g).sum =
        (d.map g).sum + ((subtotalZones cur d).map (fun z => h (zw z))).sum := by
  intro cur d
  induction d generalizing cur with
  | nil =>
    cases cur with
    | none => simp [addTotalsAux, subtotalZones]
    | some z =>
      by_cases hz : z ≠ ""
      · rw [addTotalsAux_nil_some, if_pos hz, subtotalZones_nil_some, if_pos hz]
        simp [hg]
      · rw [addTotalsAux_nil_some, if_neg hz, subtotalZones_nil_some, if_neg hz]
        simp
  | cons p t ih =>
    by_cases hc : cur ≠ some p.zone
    · rw [addTotalsAux_cons, if_pos hc, subtotalZones_cons, if_pos hc]
      cases cur with
      | none => simp [ih]; omega
      | some z0 => simp [ih, hg]; omega
    · rw [addTotalsAux_cons, if_neg hc, subtotalZones_cons, if_neg hc]
      simp [ih]; omega

/-- On rows whose zones are nondecreasing, the emitted subtotal zones
are pairwise distinct. -/
theorem subtotalZones_nodup :
    ∀ (d : List Row) (cur : Option String),
      List.Pairwise (fun a b : Row => a.zone ≤ b.zone) d →
      (∀ r ∈ d, match cur with | some z => z ≤ r.zone | none => True) →
      (subtotalZones cur d).Nodup ∧
        ∀ w ∈ subtotalZones cur d, (match cur with | some z => z ≤ w | none => True) := by
  intro d
  induction d with
  | nil =>
    intro cur _ _
    cases cur with
    | none => simp [subtotalZones]
    | some z =>
      by_cases hz : z ≠ ""
      · rw [subtotalZones_nil_some, if_pos hz]
        simp
      · rw [subtotalZones_nil_some, if_neg hz]
        simp
  | cons r t ih =>
    intro cur hpair hlb
    have hpair' := List.pairwise_cons.mp hpair
    have hlbt : ∀ r' ∈ t, r.zone ≤ r'.zone := hpair'.1
    by_cases hc : cur ≠ some r.zone
    · rw [subtotalZones_cons, if_pos hc]
      have hrec := ih (some r.zone) hpair'.2 (fun r' hr' => hlbt r' hr')
      cases cur with
      | none =>
        refine ⟨by simpa using hrec.1, ?_⟩
        intro w hw
        trivial
      | some z0 =>
        have hz0r : z0 ≤ r.zone := hlb r (List.mem_cons_self _ _)
        have hz0ne : z0 ≠ r.zone := fun h => hc (congrArg some h)
        have hz0lt : z0 < r.zone := lt_of_le_of_ne hz0r hz0ne
        simp only [List.cons_append, List.nil_append, List.nodup_cons, List.mem_cons]
        refine ⟨⟨?_, hrec.1⟩, ?_⟩
        · intro hmem
          have := hrec.2 z0 hmem
          simp only at this
          exact absurd (lt_of_lt_of_le hz0lt this) (lt_irrefl z0)
        · intro w hw
          rcases hw with rfl | hw'
          · exact le_refl w
          · have := hrec.2 w hw'
            simp only at this
            exact le_of_lt (lt_of_lt_of_le hz0lt this)
    · rw [subtotalZones_cons, if_neg hc]
      have hcur : cur = some r.zone := not_ne_iff.mp hc
      subst hcur
      exact ih (some r.zone) hpair'.2 (fun r' hr' => hlbt r' hr')

theorem sum_filter_split (g : Row → Nat) (p : Row → Bool) :
    ∀ d : List Row,
      ((d.filter p).map g).sum + ((d.filter (fun r => !(p r))).map g).sum = (d.map g).sum := by
  intro d
  induction d with
  | nil => simp
  | cons r t ih =>
    by_cases hp : p r = true
    · rw [List.filter_cons_of_pos (p := p) hp,
        List.filter_cons_of_neg (p := fun r => !(p r)) (by simp [hp])]
      simp only [List.map_cons, List.sum_cons]
      omega
    · have hp' : p r = false := by simpa using hp
      rw [List.filter_cons_of_neg (p := p) (by simp [hp']),
        List.filter_cons_of_pos (p := fun r => !(p r)) (by simp [hp'])]
      simp only [List.map_cons, List.sum_cons]
      omega

/-- Summing a quantity zone by zone over pairwise distinct zones that
cover every row gives the total over all rows. -/
theorem sum_filter_partition (g : Row → Nat) :
    ∀ (Z : List String) (d : List Row), Z.Nodup → (∀ r ∈ d, r.zone ∈ Z) →
      (Z.map (fun z => ((d.filter (fun r => r.zone == z)).map g).sum)).sum = (d.map g).sum := by
  intro Z
  induction Z with
  | nil =>
    intro d _ hcov
    have : d = [] := by
      cases d with
      | nil => rfl
      | cons r t => exact absurd (hcov r (List.mem_cons_self _ _)) (List.not_mem_nil _)
    simp [this]
  | cons z0 Z' ih =>
    intro d hnd hcov
    have hnd' := List.nodup_cons.mp hnd
    have hsplit := sum_filter_split g (fun r => r.zone == z0) d
    have hrest : ∀ z ∈ Z',
        (d.filter (fun r => r.zone == z)) =
          ((d.filter (fun r => !(r.zone == z0))).filter (fun r => r.zone == z)) := by
      intro z hz
      rw [List.filter_filter]
      refine (List.filter_congr ?_).symm
      intro r _
      by_cases hrz : (r.zone == z) = true
      · have hzz : r.zone = z := by simpa using hrz
        have hne : (r.zone == z0) = false := by
          simp only [beq_eq_false_iff_ne, ne_eq]
          intro h
          exact hnd'.1 (by rwa [← hzz, h] at hz)
        simp [hrz, hne]
      · have hrz' : (r.zone == z) = false := by simpa using hrz
        simp [hrz']
    have hcov' : ∀ r ∈ d.filter (fun r => !(r.zone == z0)), r.zone ∈ Z' := by
      intro r hr
      obtain ⟨hrd, hrne⟩ := List.mem_filter.mp hr
      have := hcov r hrd
      rcases List.mem_cons.mp this with h | h
      · exfalso
        simp only [Bool.not_eq_eq_eq_not, Bool.not_true, beq_eq_false_iff_ne, ne_eq] at hrne
        exact hrne h
      · exact h
    calc ((z0 :: Z').map (fun z => ((d.filter (fun r => r.zone == z)).map g).sum)).sum
        = ((d.filter (fun r => r.zone == z0)).map g).sum +
            (Z'.map (fun z => ((d.filter (fun r => r.zone == z)).map g).sum)).sum := by
          simp
      _ = ((d.filter (fun r => r.zone == z0)).map g).sum +
            (Z'.map (fun z =>
              (((d.filter (fun r => !(r.zone == z0))).filter (fun r => r.zone == z)).map g).sum)).sum := by
          congr 1
          exact congrArg List.sum (List.map_congr_left (fun z hz => by rw [hrest z hz]))
      _ = ((d.filter (fun r => r.zone == z0)).map g).sum +
            ((d.filter (fun r => !(r.zone == z0))).map g).sum := by
          rw [ih _ hnd'.2 hcov']
      _ = (d.map g).sum := hsplit

/-- C4: every zone subtotal row of the output is the subtotal of some
zone `z`, its present/absent/on-leave fields are the sums over that
zone's point rows, its percentage is `100 * sum(present) / sum(marked)`
over those rows (with 0 at an empty denominator), and the subtotal
percentage is in general not the arithmetic mean of the per-point
percentages, as the concrete zone `zoneDemoRows` shows. -/
theorem zone_subtotal_percentage (data : List Row) (r : Row)
    (hr : r ∈ addTotals data) (hpoint : r ∉ data) (hgrand : r ≠ grandRow data) :
    (∃ z,
      r = zoneTotalRow z (zoneAggregate data z) ∧
      r.present = ((data.filter (fun x => x.zone == z)).map (·.present)).sum ∧
      r.absent = ((data.filter (fun x => x.zone == z)).map (·.absent)).sum ∧
      r.on_leave = ((data.filter (fun x => x.zone == z)).map (·.on_leave)).sum ∧
      r.attendance_percentage =
        (if ((data.filter (fun x => x.zone == z)).map
              (fun x => x.present + x.absent + x.on_leave)).sum = 0 then (0 : ℚ)
         else 100 * (((((data.filter (fun x => x.zone == z)).map (·.present)).sum : Nat)) : ℚ) /
           ((((data.filter (fun x => x.zone == z)).map
              (fun x => x.present + x.absent + x.on_leave)).sum : Nat) : ℚ))) ∧
    (zoneTotalRow "North" (zoneAggregate zoneDemoRows "North")).attendance_percentage ≠
      (zoneDemoRows.map (·.attendance_percentage)).sum / (zoneDemoRows.length : ℚ) := by
  constructor
  · rw [addTotals] at hr
    rcases List.mem_append.mp hr with hr' | hr'
    · rcases mem_addTotalsAux (zoneAggregate data) none data r hr' with h | ⟨z, _, hrz⟩
      · exact absurd h hpoint
      · refine ⟨z, hrz, ?_⟩
        have hsum : ((data.filter (fun x => x.zone == z)).map
            (fun x => x.present + x.absent + x.on_leave)).sum =
            ((data.filter (fun x => x.zone == z)).map (·.present)).sum +
            ((data.filter (fun x => x.zone == z)).map (·.absent)).sum +
            ((data.filter (fun x => x.zone == z)).map (·.on_leave)).sum := by
          generalize data.filter (fun x => x.zone == z) = l
          induction l with
          | nil => simp
          | cons x t ih => simp [ih]; omega
        have hagg := zoneAggregate_spec data z
        subst hrz
        rw [hagg]
        refine ⟨rfl, rfl, rfl, ?_⟩
        rw [zoneTotalRow]
        simp only [hsum]
        by_cases hz : ((data.filter (fun x => x.zone == z)).map (·.present)).sum +
            ((data.filter (fun x => x.zone == z)).map (·.absent)).sum +
            ((data.filter (fun x => x.zone == z)).map (·.on_leave)).sum = 0
        · rw [if_pos hz, if_pos hz]
        · rw [if_neg hz, if_neg hz]
          rw [div_mul_eq_mul_div, mul_comm]
    · rcases List.mem_singleton.mp hr' with rfl
      exact absurd rfl hgrand
  · have hsub : (zoneTotalRow "North" (zoneAggregate zoneDemoRows "North")).attendance_percentage =
        40 := by
      norm_num [zoneTotalRow, zoneAggregate, zoneDemoRows]
    have hmean : (zoneDemoRows.map (·.attendance_percentage)).sum / (zoneDemoRows.length : ℚ) =
        100 / 3 := by
      norm_num [zoneDemoRows]
    rw [hsub, hmean]
    norm_num

/-- Witness for C4 at the one-row zone `zeroZoneRows`: its subtotal row
is in the output, is not a point row and not the grand total, and the
theorem yields the sum/percentage characterisation for it. -/
theorem zone_subtotal_percentage_witness :
    (zoneTotalRow "Z" (zoneAggregate zeroZoneRows "Z") ∈ addTotals zeroZoneRows) ∧
    ((∃ z,
      zoneTotalRow "Z" (zoneAggregate zeroZoneRows "Z") = zoneTotalRow z (zoneAggregate zeroZoneRows z) ∧
      (zoneTotalRow "Z" (zoneAggregate zeroZoneRows "Z")).present =
        ((zeroZoneRows.filter (fun x => x.zone == z)).map (·.present)).sum ∧
      (zoneTotalRow "Z" (zoneAggregate zeroZoneRows "Z")).absent =
        ((zeroZoneRows.filter (fun x => x.zone == z)).map (·.absent)).sum ∧
      (zoneTotalRow "Z" (zoneAggregate zeroZoneRows "Z")).on_leave =
        ((zeroZoneRows.filter (fun x => x.zone == z)).map (·.on_leave)).sum ∧
      (zoneTotalRow "Z" (zoneAggregate zeroZoneRows "Z")).attendance_percentage =
        (if ((zeroZoneRows.filter (fun x => x.zone == z)).map
              (fun x => x.present + x.absent + x.on_leave)).sum = 0 then (0 : ℚ)
         else 100 * (((((zeroZoneRows.filter (fun x => x.zone == z)).map (·.present)).sum : Nat)) : ℚ) /
           ((((zeroZoneRows.filter (fun x => x.zone == z)).map
              (fun x => x.present + x.absent + x.on_leave)).sum : Nat) : ℚ))) ∧
     (zoneTotalRow "North" (zoneAggregate zoneDemoRows "North")).attendance_percentage ≠
       (zoneDemoRows.map (·.attendance_percentage)).sum / (zoneDemoRows.length : ℚ)) :=
  ⟨by decide,
    zone_subtotal_percentage zeroZoneRows (zoneTotalRow "Z" (zoneAggregate zeroZoneRows "Z"))
      (by decide) (by decide) (by decide)⟩

/-- Doubling of a per-row quantity when every point row is covered by an
emitted zone subtotal: the body of the report (all rows but the grand
total) sums to twice the point-row total. -/
theorem doubling_sum (d : List Row) (g : Row → Nat) (h : ZoneTotals → Nat)
    (hg : ∀ z, g (zoneTotalRow z (zoneAggregate d z)) = h (zoneAggregate d z))
    (hagg : ∀ z, h (zoneAggregate d z) = ((d.filter (fun r => r.zone == z)).map g).sum)
    (hsorted : List.Pairwise (fun a b : Row => a.zone ≤ b.zone) d)
    (hcov : ∀ r ∈ d, r.zone ∈ subtotalZones none d) :
    ((addTotals d).dropLast.map g).sum = 2 * (d.map g).sum := by
  rw [addTotals, List.dropLast_concat]
  rw [addTotalsAux_map_sum (zoneAggregate d) g h hg none d]
  have hnd := (subtotalZones_nodup d none hsorted (fun _ _ => trivial)).1
  have hpart := sum_filter_partition g (subtotalZones none d) d hnd hcov
  have hmapeq : ((subtotalZones none d).map (fun z => h (zoneAggregate d z))).sum =
      ((subtotalZones none d).map
        (fun z => ((d.filter (fun r => r.zone == z)).map g).sum)).sum := by
    exact congrArg List.sum (List.map_congr_left (fun z _ => hagg z))
  rw [hmapeq, hpart]
  omega

/-- C5: the pie chart and the summary panel of `execute` total the
present/absent/on-leave columns over every row except the last (the
grand total), so zone subtotal rows are counted in; consequently, on a
sorted report all of whose point rows are covered by an emitted zone
subtotal, the chart and summary Present/Absent/On Leave values are
exactly twice those of the grand-total row. -/
theorem execute_double_counts_subtotals :
    (∀ data : List Row,
      (execute data).chart_values =
        [(data.dropLast.map (·.present)).sum, (data.dropLast.map (·.absent)).sum,
          (data.dropLast.map (·.on_leave)).sum] ∧
      (execute data).summary_present = (data.dropLast.map (·.present)).sum ∧
      (execute data).summary_absent = (data.dropLast.map (·.absent)).sum ∧
      (execute data).summary_on_leave = (data.dropLast.map (·.on_leave)).sum) ∧
    (∀ d0 : List Row,
      (∀ r ∈ sortRows d0, r.zone ∈ subtotalZones none (sortRows d0)) →
      (execute (addTotals (sortRows d0))).summary_present =
        2 * (grandRow (sortRows d0)).present ∧
      (execute (addTotals (sortRows d0))).summary_absent =
        2 * (grandRow (sortRows d0)).absent ∧
      (execute (addTotals (sortRows d0))).summary_on_leave =
        2 * (grandRow (sortRows d0)).on_leave ∧
      (execute (addTotals (sortRows d0))).chart_values =
        [2 * (grandRow (sortRows d0)).present, 2 * (grandRow (sortRows d0)).absent,
          2 * (grandRow (sortRows d0)).on_leave]) := by
  have part1 : ∀ data : List Row,
      (execute data).chart_values =
        [(data.dropLast.map (·.present)).sum, (data.dropLast.map (·.absent)).sum,
          (data.dropLast.map (·.on_leave)).sum] ∧
      (execute data).summary_present = (data.dropLast.map (·.present)).sum ∧
      (execute data).summary_absent = (data.dropLast.map (·.absent)).sum ∧
      (execute data).summary_on_leave = (data.dropLast.map (·.on_leave)).sum := by
    intro data
    simp only [execute]
    by_cases h : (data.dropLast.map (·.present)).sum + (data.dropLast.map (·.absent)).sum +
        (data.dropLast.map (·.on_leave)).sum = 0
    · rw [if_pos h]
      have h1 : (data.dropLast.map (·.present)).sum = 0 := by omega
      have h2 : (data.dropLast.map (·.absent)).sum = 0 := by omega
      have h3 : (data.dropLast.map (·.on_leave)).sum = 0 := by omega
      rw [h1, h2, h3]
      exact ⟨rfl, rfl, rfl, rfl⟩
    · rw [if_neg h]
      exact ⟨rfl, rfl, rfl, rfl⟩
  refine ⟨part1, ?_⟩
  intro d0 hcov
  have hsorted : List.Pairwise (fun a b : Row => a.zone ≤ b.zone) (sortRows d0) := by
    have hs := List.sorted_insertionSort keyLe d0
    exact List.Pairwise.imp
      (fun hab => by
        rcases hab with h | ⟨h, -⟩
        · exact le_of_lt h
        · exact le_of_eq h) hs
  have hp := doubling_sum (sortRows d0) (fun r => r.present) ZoneTotals.present
    (fun z => rfl) (fun z => by rw [zoneAggregate_spec]) hsorted hcov
  have ha := doubling_sum (sortRows d0) (fun r => r.absent) ZoneTotals.absent
    (fun z => rfl) (fun z => by rw [zoneAggregate_spec]) hsorted hcov
  have hl := doubling_sum (sortRows d0) (fun r => r.on_leave) ZoneTotals.on_leave
    (fun z => rfl) (fun z => by rw [zoneAggregate_spec]) hsorted hcov
  have he := part1 (addTotals (sortRows d0))
  refine ⟨?_, ?_, ?_, ?_⟩
  · rw [he.2.1, hp]; rfl
  · rw [he.2.2.1, ha]; rfl
  · rw [he.2.2.2, hl]; rfl
  · rw [he.1, hp, ha, hl]; rfl

theorem sortRows_pair (a b : Row) :
    sortRows [a, b] = if keyLe a b then [a, b] else [b, a] := by
  by_cases h : keyLe a b
  · simp [sortRows, List.insertionSort, List.orderedInsert, h]
  · simp [sortRows, List.insertionSort, List.orderedInsert, h]

theorem sortRows_coverDemoRows : sortRows coverDemoRows = coverDemoRows := by
  rw [coverDemoRows, sortRows_pair]
  exact if_pos (Or.inr ⟨rfl, le_refl _⟩)

/-- Witness for C5: a one-zone, two-point report where the zone receives
a subtotal; the summary and chart values double the grand total. -/
theorem execute_double_counts_subtotals_witness :
    (∀ r ∈ sortRows coverDemoRows, r.zone ∈ subtotalZones none (sortRows coverDemoRows)) ∧
    ((execute (addTotals (sortRows coverDemoRows))).summary_present =
      2 * (grandRow (sortRows coverDemoRows)).present ∧
     (execute (addTotals (sortRows coverDemoRows))).summary_absent =
      2 * (grandRow (sortRows coverDemoRows)).absent ∧
     (execute (addTotals (sortRows coverDemoRows))).summary_on_leave =
      2 * (grandRow (sortRows coverDemoRows)).on_leave ∧
     (execute (addTotals (sortRows coverDemoRows))).chart_values =
      [2 * (grandRow (sortRows coverDemoRows)).present,
       2 * (grandRow (sortRows coverDemoRows)).absent,
       2 * (grandRow (sortRows coverDemoRows)).on_leave]) := by
  have hcov : ∀ r ∈ sortRows coverDemoRows, r.zone ∈ subtotalZones none (sortRows coverDemoRows) := by
    rw [sortRows_coverDemoRows]
    decide
  exact ⟨hcov, execute_double_counts_subtotals.2 coverDemoRows hcov⟩

theorem zoneRuns_nil : zoneRuns [] = [] := rfl

theorem zoneRuns_cons (r : Row) (rest : List Row) :
    zoneRuns (r :: rest) =
      match zoneRuns rest with
      | [] => [(r.zone, [r])]
      | (z, run) :: more =>
        if r.zone = z then (z, r :: run) :: more
        else (r.zone, [r]) :: (z, run) :: more := rfl

theorem joinRuns_nil (zw : String → ZoneTotals) : joinRuns zw [] = [] := rfl

theorem joinRuns_single (zw : String → ZoneTotals) (z : String) (run : List Row) :
    joinRuns zw [(z, run)] = run ++ (if z = "" then [] else [zoneTotalRow z (zw z)]) := rfl

theorem joinRuns_cons2 (zw : String → ZoneTotals) (z : String) (run : List Row)
    (p : String × List Row) (runs : List (String × List Row)) :
    joinRuns zw ((z, run) :: p :: runs) =
      run ++ zoneTotalRow z (zw z) :: joinRuns zw (p :: runs) := rfl

theorem joinRuns_cons_row (zw : String → ZoneTotals) (z : String) (r : Row)
    (run : List Row) (more : List (String × List Row)) :
    joinRuns zw ((z, r :: run) :: more) = r :: joinRuns zw ((z, run) :: more) := by
  cases more with
  | nil => rw [joinRuns_single, joinRuns_single, List.cons_append]
  | cons p runs => rw [joinRuns_cons2, joinRuns_cons2, List.cons_append]

theorem zoneRuns_cons_nil (r : Row) (rest : List Row) (h : zoneRuns rest = []) :
    zoneRuns (r :: rest) = [(r.zone, [r])] := by
  rw [zoneRuns_cons, h]

theorem zoneRuns_cons_cons (r : Row) (rest : List Row) (z : String) (run : List Row)
    (more : List (String × List Row)) (h : zoneRuns rest = (z, run) :: more) :
    zoneRuns (r :: rest) =
      if r.zone = z then (z, r :: run) :: more
      else (r.zone, [r]) :: (z, run) :: more := by
  rw [zoneRuns_cons, h]

theorem zoneRuns_ne_nil (r : Row) (rest : List Row) : zoneRuns (r :: rest) ≠ [] := by
  cases hrest : zoneRuns rest with
  | nil => rw [zoneRuns_cons_nil r rest hrest]; simp
  | cons q more =>
    rcases q with ⟨z, run⟩
    rw [zoneRuns_cons_cons r rest z run more hrest]
    by_cases hq : r.zone = z
    · rw [if_pos hq]; simp
    · rw [if_neg hq]; simp

theorem zoneRuns_head_key (r : Row) (rest : List Row) :
    ∃ run more, zoneRuns (r :: rest) = (r.zone, run) :: more := by
  cases hrest : zoneRuns rest with
  | nil => exact ⟨[r], [], zoneRuns_cons_nil r rest hrest⟩
  | cons q more =>
    rcases q with ⟨z, run⟩
    by_cases hq : r.zone = z
    · exact ⟨r :: run, more, by rw [zoneRuns_cons_cons r rest z run more hrest, if_pos hq, hq]⟩
    · exact ⟨[r], (z, run) :: more, by rw [zoneRuns_cons_cons r rest z run more hrest, if_neg hq]⟩

/-- Bridging lemma: the subtotal-insertion loop produces exactly the
run-based layout, both with no pending zone and with zone `z` pending. -/
theorem addTotalsAux_eq_joinRuns (zw : String → ZoneTotals) :
    ∀ d : List Row,
      (addTotalsAux zw none d = joinRuns zw (zoneRuns d)) ∧
      (zoneRuns d = [] →
        ∀ z, addTotalsAux zw (some z) d = if z ≠ "" then [zoneTotalRow z (zw z)] else []) ∧
      (∀ z' run more, zoneRuns d = (z', run) :: more → ∀ z,
        addTotalsAux zw (some z) d =
          if z = z' then joinRuns zw (zoneRuns d)
          else zoneTotalRow z (zw z) :: joinRuns zw (zoneRuns d)) := by
  intro d
  induction d with
  | nil =>
    refine ⟨rfl, fun _ z => addTotalsAux_nil_some zw z, ?_⟩
    intro z' run more h
    cases h
  | cons r rest ih =>
    obtain ⟨ih1, ih2a, ih2b⟩ := ih
    have hstep : r :: addTotalsAux zw (some r.zone) rest = joinRuns zw (zoneRuns (r :: rest)) := by
      cases hrest : zoneRuns rest with
      | nil =>
        have hrestnil : rest = [] := by
          cases rest with
          | nil => rfl
          | cons x xs => exact absurd hrest (zoneRuns_ne_nil x xs)
        subst hrestnil
        rw [ih2a rfl r.zone, zoneRuns_cons_nil r [] rfl, joinRuns_single]
        by_cases hz : r.zone = ""
        · rw [if_neg (by simpa using hz), if_pos hz]
          rfl
        · rw [if_pos hz, if_neg hz]
          rfl
      | cons q more =>
        rcases q with ⟨z', run⟩
        rw [ih2b z' run more hrest r.zone, hrest]
        by_cases hq : r.zone = z'
        · rw [if_pos hq, zoneRuns_cons_cons r rest z' run more hrest, if_pos hq,
            joinRuns_cons_row]
        · rw [if_neg hq, zoneRuns_cons_cons r rest z' run more hrest, if_neg hq,
            joinRuns_cons2, List.cons_append, List.nil_append]
    refine ⟨?_, ?_, ?_⟩
    · rw [addTotalsAux_cons, if_pos (by simp), List.nil_append, hstep]
    · intro h
      exact absurd h (zoneRuns_ne_nil r rest)
    · intro z' run more h z
      obtain ⟨run0, more0, hkey⟩ := zoneRuns_head_key r rest
      have hz' : z' = r.zone := by
        rw [h] at hkey
        injection hkey with h1 _
        exact congrArg Prod.fst h1
      subst hz'
      rw [addTotalsAux_cons]
      by_cases hz : z = r.zone
      · have hc : ¬(some z ≠ some r.zone) := by simp [hz]
        rw [if_neg hc]
        rw [if_pos hz]
        rw [hz]
        exact hstep
      · have hc : (some z ≠ some r.zone) := by simp [hz]
        rw [if_pos hc]
        rw [if_neg hz]
        rw [List.cons_append, List.nil_append]
        rw [hstep]

theorem zoneRuns_keys_subset :
    ∀ (d : List Row) (k : String), k ∈ (zoneRuns d).map Prod.fst → ∃ x ∈ d, x.zone = k := by
  intro d
  induction d with
  | nil => intro k hk; simp [zoneRuns_nil] at hk
  | cons r rest ih =>
    intro k hk
    cases hrest : zoneRuns rest with
    | nil =>
      rw [zoneRuns_cons_nil r rest hrest] at hk
      simp only [List.map_cons, List.map_nil, List.mem_singleton] at hk
      exact ⟨r, List.mem_cons_self _ _, hk.symm⟩
    | cons q qs =>
      rcases q with ⟨qz, qrun⟩
      rw [zoneRuns_cons_cons r rest qz qrun qs hrest] at hk
      by_cases hq : r.zone = qz
      · rw [if_pos hq] at hk
        simp only [List.map_cons, List.mem_cons] at hk
        rcases hk with rfl | hk
        · exact ⟨r, List.mem_cons_self _ _, hq⟩
        · obtain ⟨x, hx, hxz⟩ := ih k (by rw [hrest]; simp [hk])
          exact ⟨x, List.mem_cons_of_mem _ hx, hxz⟩
      · rw [if_neg hq] at hk
        simp only [List.map_cons, List.mem_cons] at hk
        rcases hk with rfl | hk
        · exact ⟨r, List.mem_cons_self _ _, rfl⟩
        · obtain ⟨x, hx, hxz⟩ := ih k (by rw [hrest]; simpa using hk)
          exact ⟨x, List.mem_cons_of_mem _ hx, hxz⟩

theorem zoneRuns_keys_nodup :
    ∀ d : List Row, List.Pairwise (fun a b : Row => a.zone ≤ b.zone) d →
      ((zoneRuns d).map Prod.fst).Nodup := by
  intro d
  induction d with
  | nil => intro _; simp [zoneRuns_nil]
  | cons r rest ih =>
    intro hpair
    have hpair' := List.pairwise_cons.mp hpair
    cases hrest : zoneRuns rest with
    | nil =>
      rw [zoneRuns_cons_nil r rest hrest]
      simp
    | cons q qs =>
      rcases q with ⟨qz, qrun⟩
      rw [zoneRuns_cons_cons r rest qz qrun qs hrest]
      by_cases hq : r.zone = qz
      · rw [if_pos hq]
        have := ih hpair'.2
        rwa [hrest] at this
      · rw [if_neg hq]
        have hnd := ih hpair'.2
        rw [hrest] at hnd
        simp only [List.map_cons, List.nodup_cons] at hnd ⊢
        refine ⟨?_, hnd⟩
        intro hmem
        have hsub : ∃ x ∈ rest, x.zone = r.zone := by
          apply zoneRuns_keys_subset rest r.zone
          rw [hrest]
          simpa using hmem
        obtain ⟨x, hx, hxz⟩ := hsub
        cases rest with
        | nil => exact absurd hx (List.not_mem_nil _)
        | cons s rest' =>
          obtain ⟨run0, more0, hkey⟩ := zoneRuns_head_key s rest'
          have hhead : qz = s.zone := by
            rw [hrest] at hkey
            injection hkey with h1 _
            exact congrArg Prod.fst h1
          have hrs : r.zone ≤ s.zone := hpair'.1 s (List.mem_cons_self _ _)
          rcases List.mem_cons.mp hx with hxs | hx'
          · refine hq ?_
            rw [hhead, ← hxs]
            exact hxz.symm
          · have hsx : s.zone ≤ x.zone := (List.pairwise_cons.mp hpair'.2).1 x hx'
            rw [hxz] at hsx
            have heq : s.zone = r.zone := le_antisymm hsx hrs
            refine hq ?_
            rw [hhead, heq]

/-- Counterexample to C6 as stated: a report whose single point row has
the empty-string zone gets NO subtotal row for that zone — the output is
just the point row and the grand total, with no `" Total"` row. -/
theorem empty_zone_subtotal_missing :
    (addTotals [⟨"", "P9", 3, 1, 1, 0, 50⟩]).map (·.zone) = ["", "Grand Total"] ∧
    "" ++ " Total" ∉ (addTotals [⟨"", "P9", 3, 1, 1, 0, 50⟩]).map (·.zone) := by
  decide

/-- C6 amended: the final row list is exactly each maximal zone run
followed by one subtotal row for its zone — except that the last run
gets no subtotal when its zone is the empty string — with exactly one
grand-total row as the last element; and on the sorted data of the
pipeline every zone forms a single run, so each zone has at most one
subtotal row. -/
theorem subtotal_layout :
    (∀ data : List Row, addTotals data = amendedLayout data) ∧
    (∀ data : List Row, (addTotals data).getLast? = some (grandRow data)) ∧
    (∀ d0 : List Row, ((zoneRuns (sortRows d0)).map Prod.fst).Nodup) := by
  refine ⟨?_, ?_, ?_⟩
  · intro data
    rw [addTotals, amendedLayout, (addTotalsAux_eq_joinRuns (zoneAggregate data) data).1]
  · intro data
    rw [addTotals]
    simp
  · intro d0
    apply zoneRuns_keys_nodup
    have hs := List.sorted_insertionSort keyLe d0
    exact List.Pairwise.imp
      (fun hab => by
        rcases hab with h | ⟨h, -⟩
        · exact le_of_lt h
        · exact le_of_eq h) hs

/-- C2 fails on the code: at a point with one submitted `Present` row and
one submitted `Work From Home` row on the report date, the counter loop
assigns (rather than adds) the shared `present` counter for both
statuses, so the report row carries present = 1 while the sum of the two
status counts — the value the specification describes, and the value the
designation-wise breakdown of the same file computes — is 2. -/
theorem present_overwrites_work_from_home :
    (computePointRows presentOverwriteDB presentOverwriteFilters).map (·.present) = [1] ∧
    specPresentCount (groupByStatus presentOverwriteDB.attendanceTable) = 2 ∧
    processAttendanceCounts [⟨"Present", 1⟩, ⟨"Work From Home", 1⟩] =
      ⟨1, 0, 0⟩ := by
  decide

/-- C8: every computed point row whose marked total (present + absent +
on leave) is zero has attendance percentage exactly 0 — the division
branch is never taken. -/
theorem zero_marked_gives_zero_percentage (db : ReportDB) (f : ReportFilters) (r : Row)
    (hr : r ∈ computePointRows db f) (hzero : r.present + r.absent + r.on_leave = 0) :
    r.attendance_percentage = 0 := by
  simp only [computePointRows, List.mem_filterMap] at hr
  obtain ⟨g, _, hsome⟩ := hr
  rcases g with ⟨gp, gc⟩
  cases gp with
  | none =>
    have hsome' : (none : Option Row) = some r := hsome
    cases hsome'
  | some p =>
    have hsome' :
        (if p = "" then none else some (mkPointRow db f (allowedPoints db f) p gc)) =
          some r := hsome
    by_cases hp : p = ""
    · rw [if_pos hp] at hsome'
      cases hsome'
    · rw [if_neg hp] at hsome'
      obtain rfl := (Option.some.inj hsome').symm
      simp only [mkPointRow] at hzero ⊢
      rw [if_pos hzero]

/-- Witness for C8: the single row of the no-attendance store has marked
total 0 and percentage 0. -/
theorem zero_marked_gives_zero_percentage_witness :
    (∃ r ∈ computePointRows noAttendanceDB presentOverwriteFilters,
      r.present + r.absent + r.on_leave = 0 ∧ r.attendance_percentage = 0) := by
  have hr : mkPointRow noAttendanceDB presentOverwriteFilters
      (allowedPoints noAttendanceDB presentOverwriteFilters) "P1" 1 ∈
      computePointRows noAttendanceDB presentOverwriteFilters := by
    decide
  have hz : (mkPointRow noAttendanceDB presentOverwriteFilters
      (allowedPoints noAttendanceDB presentOverwriteFilters) "P1" 1).present +
      (mkPointRow noAttendanceDB presentOverwriteFilters
        (allowedPoints noAttendanceDB presentOverwriteFilters) "P1" 1).absent +
      (mkPointRow noAttendanceDB presentOverwriteFilters
        (allowedPoints noAttendanceDB presentOverwriteFilters) "P1" 1).on_leave = 0 := by
    decide
  exact ⟨_, hr, hz,
    zero_marked_gives_zero_percentage noAttendanceDB presentOverwriteFilters _ hr hz⟩

/-- C9: when a farmer is created from `farmer_create_detail` and the
subsequent visit insert or submit fails, the endpoint answers with code
`VISIT_CREATION_FAILED` and HTTP 400, and the newly created Farmer
Details record is still in the store — nothing rolls it back. -/
theorem visit_failure_keeps_created_farmer (farmer_name : Option String)
    (fcd : List (String × String)) (vd : VisitDetail) (env : VisitEnv) (s : VisitStore)
    (htoken : env.token_ok = true)
    (hfcd : fcd ≠ [])
    (hfarmer : env.farmer_insert_ok = true)
    (himage : vd.has_image = false ∨ env.image_ok = true)
    (hvisit : env.visit_insert_ok = false ∨ env.visit_submit_ok = false) :
    (create_farmer_visit farmer_name (some fcd) vd env s).1.code = "VISIT_CREATION_FAILED" ∧
    (create_farmer_visit farmer_name (some fcd) vd env s).1.http_status_code = 400 ∧
    (create_farmer_visit farmer_name (some fcd) vd env s).1.success = false ∧
    env.new_farmer_name ∈ (create_farmer_visit farmer_name (some fcd) vd env s).2.farmers := by
  have hdict : pyDictTruthy (some fcd) = true := by simp [pyDictTruthy, hfcd]
  have himg : ¬(vd.has_image = true ∧ env.image_ok = false) := by
    rcases himage with h | h
    · simp [h]
    · simp [h]
  rcases hvisit with hv | hv
  · refine ⟨?_, ?_, ?_, ?_⟩ <;>
      simp [create_farmer_visit, htoken, hdict, hfarmer, himg, hv]
  · by_cases hvi : env.visit_insert_ok = true
    · refine ⟨?_, ?_, ?_, ?_⟩ <;>
        simp [create_farmer_visit, htoken, hdict, hfarmer, himg, hvi, hv]
    · have hvi' : env.visit_insert_ok = false := by simpa using hvi
      refine ⟨?_, ?_, ?_, ?_⟩ <;>
        simp [create_farmer_visit, htoken, hdict, hfarmer, himg, hvi']

/-- Witness for C9: a concrete request whose visit submit fails after
the farmer `FARM-0001` was created; the farmer remains stored. -/
theorem visit_failure_keeps_created_farmer_witness :
    ((⟨true, "dp-employee", true, "FARM-0001", true, true, "VT-0001", false⟩ : VisitEnv).token_ok
        = true) ∧
    ([("farmer_name", "Ravi")] ≠ ([] : List (String × String))) ∧
    ((create_farmer_visit none (some [("farmer_name", "Ravi")]) ⟨false⟩
        ⟨true, "dp-employee", true, "FARM-0001", true, true, "VT-0001", false⟩
        ⟨[], []⟩).1.code = "VISIT_CREATION_FAILED" ∧
      (create_farmer_visit none (some [("farmer_name", "Ravi")]) ⟨false⟩
        ⟨true, "dp-employee", true, "FARM-0001", true, true, "VT-0001", false⟩
        ⟨[], []⟩).1.http_status_code = 400 ∧
      (create_farmer_visit none (some [("farmer_name", "Ravi")]) ⟨false⟩
        ⟨true, "dp-employee", true, "FARM-0001", true, true, "VT-0001", false⟩
        ⟨[], []⟩).1.success = false ∧
      "FARM-0001" ∈ (create_farmer_visit none (some [("farmer_name", "Ravi")]) ⟨false⟩
        ⟨true, "dp-employee", true, "FARM-0001", true, true, "VT-0001", false⟩
        ⟨[], []⟩).2.farmers) :=
  ⟨rfl, by decide,
    visit_failure_keeps_created_farmer none [("farmer_name", "Ravi")] ⟨false⟩
      ⟨true, "dp-employee", true, "FARM-0001", true, true, "VT-0001", false⟩ ⟨[], []⟩
      rfl (by decide) rfl (Or.inl rfl) (Or.inr rfl)⟩

/-- C10: a route whose name contains "default" case-insensitively is
skipped: the hook leaves the Job Opening store unchanged. -/
theorem default_route_skips_job_opening (doc : RouteDoc) (env : RouteEnv)
    (jobOpenings : List JobOpening)
    (h : pyContains "default" (pyLower doc.route_name) = true) :
    after_insert doc env jobOpenings = jobOpenings := by
  rw [after_insert, if_pos h]

/-- Witness for C10 at the route name "Default North". -/
theorem default_route_skips_job_opening_witness :
    (pyContains "default" (pyLower "Default North") = true) ∧
    after_insert ⟨"RT-0007", "Default North", "HYD"⟩ ⟨"2025-01-01 00:00:00", true⟩ [] = [] :=
  ⟨by decide,
    default_route_skips_job_opening ⟨"RT-0007", "Default North", "HYD"⟩
      ⟨"2025-01-01 00:00:00", true⟩ [] (by decide)⟩

/-- Witness for C7: a concrete empty-zone row strictly precedes a
concrete non-empty-zone row in the key order. -/
theorem report_rows_sorted_stable_witness :
    ((⟨"", "P0", 0, 0, 0, 0, 0⟩ : Row).zone = "") ∧
    ((⟨"N", "P1", 0, 0, 0, 0, 0⟩ : Row).zone ≠ "") ∧
    (keyLe ⟨"", "P0", 0, 0, 0, 0, 0⟩ ⟨"N", "P1", 0, 0, 0, 0, 0⟩ ∧
      ¬ keyLe ⟨"N", "P1", 0, 0, 0, 0, 0⟩ ⟨"", "P0", 0, 0, 0, 0, 0⟩) :=
  ⟨rfl, by decide,
    (report_rows_sorted_stable [] ("", "") ⟨"", "P0", 0, 0, 0, 0, 0⟩
      ⟨"N", "P1", 0, 0, 0, 0, 0⟩).2.2.2 rfl (by decide)⟩

end SidFarm

